import Mathlib

set_option maxHeartbeats 1000000

namespace President

/-!
Verification of the President card-game client and engine against its
specification.  The definitions below are shallow embeddings of the
TypeScript client code (`src/frontend/src/store/gameStore.ts`,
`src/frontend/src/components/Card.tsx`,
`src/frontend/src/components/GameTable.tsx`, the Lobby component), plus a
spec-modelled card-location engine for the conservation invariant.
-/

/-! ### JSON values: model of the JS objects the client store manipulates.
JS objects are ordered key/value lists; property update keeps position,
a new property is appended at the end.  Objects are modelled as plain
data records: patch paths are data keys, and the prototype chain is not
modelled. -/

inductive Json where
  | null : Json
  | bool (b : Bool) : Json
  | num (n : Int) : Json
  | str (s : String) : Json
  | obj (fields : List (String × Json)) : Json

/-- Property read, `o[k]` (first matching key). -/
def getKey : List (String × Json) → String → Option Json
  | [], _ => none
  | (k2, v) :: rest, k => if k2 = k then some v else getKey rest k

/-- Property write, `o[k] = v`: replace in place, else append at the end. -/
def setKey : List (String × Json) → String → Json → List (String × Json)
  | [], k, v => [(k, v)]
  | (k2, v2) :: rest, k, v =>
      if k2 = k then (k, v) :: rest else (k2, v2) :: setKey rest k v

/-- Property delete, `delete o[k]`. -/
def eraseKey (m : List (String × Json)) (k : String) : List (String × Json) :=
  m.filter (fun kv => kv.1 ≠ k)

/-- `op.path.split('/')` on the character list of the path: JavaScript
`String.prototype.split` on a single character, keeping empty segments. -/
def jsSplitAll : List Char → List String
  | [] => [""]
  | c :: rest =>
      if c = '/' then "" :: jsSplitAll rest
      else
        match jsSplitAll rest with
        | s :: tail => String.mk (c :: s.data) :: tail
        | [] => [String.mk [c]]

/-- `op.path.split('/').filter(p => p)` from `applyPatch`. -/
def splitPath (p : String) : List String :=
  (jsSplitAll p.data).filter (fun seg => seg ≠ "")

/-- `setNestedValue` from gameStore.ts, as a partial function: `none`
models the TypeError thrown (strict mode) when navigation meets a
non-object value (`key in current` / property assignment on a primitive).
An absent intermediate key is created as `{}` before descending. -/
def setNestedValue : Json → List String → Json → Option Json
  | j, [], _ => some j
  | .obj m, [k], v => some (.obj (setKey m k v))
  | .obj m, k :: k2 :: rest, v =>
      match setNestedValue ((getKey m k).getD (.obj [])) (k2 :: rest) v with
      | some c => some (.obj (setKey m k c))
      | none => none
  | _, _ :: _, _ => none

/-- The digit value of a digit string, for canonical array-index keys. -/
def digitsVal (l : List Char) : Nat :=
  l.foldl (fun a c => a * 10 + (c.toNat - 48)) 0

/-- Own properties of a boxed string primitive: `length` and the
canonical integer indices below its length — exactly the keys whose
strict-mode `delete` throws a TypeError (non-configurable). -/
def jsStringOwnKey (s k : String) : Bool :=
  k = "length" ||
    (match k.data with
     | [] => false
     | ['0'] => decide (0 < s.length)
     | c :: rest =>
         c.isDigit && decide (c ≠ '0') && rest.all (fun d => d.isDigit)
           && decide (digitsVal (c :: rest) < s.length))

/-- `removeNestedValue` from gameStore.ts.  An absent intermediate key
returns early with the state unchanged; the `in` test on a primitive
intermediate throws (`none`); the final `delete current[last]` throws on
a `null` target (ToObject) and on a string's own `length`/index keys
(non-configurable, strict mode), and is a silent boxed no-op on numbers,
booleans and other string keys. -/
def removeNestedValue : Json → List String → Option Json
  | j, [] => some j
  | .obj m, [k] => some (.obj (eraseKey m k))
  | .obj m, k :: k2 :: rest =>
      match getKey m k with
      | none => some (.obj m)
      | some child =>
          match removeNestedValue child (k2 :: rest) with
          | some c => some (.obj (setKey m k c))
          | none => none
  | .null, [_] => none
  | .str s2, [k] => if jsStringOwnKey s2 k then none else some (.str s2)
  | .bool b, [_] => some (.bool b)
  | .num n, [_] => some (.num n)
  | _, _ :: _ :: _ => none

/-- Reading a value back at a path (used to state what the patch ops did). -/
def getPath : Json → List String → Option Json
  | j, [] => some j
  | .obj m, k :: rest =>
      match getKey m k with
      | some c => getPath c rest
      | none => none
  | _, _ :: _ => none

/-- Top-level field read on a state object. -/
def getField : Json → String → Option Json
  | .obj m, k => getKey m k
  | _, _ => none

/-- `PatchOperation` from types/game.ts: `op ∈ {replace, add, remove}`. -/
inductive PatchOp where
  | replace (path : String) (value : Json)
  | add (path : String) (value : Json)
  | remove (path : String)

def PatchOp.path : PatchOp → String
  | .replace p _ => p
  | .add p _ => p
  | .remove p => p

/-- One iteration of the `for (const op of ops)` loop in `applyPatch`. -/
def applyOp (j : Json) (op : PatchOp) : Option Json :=
  match op with
  | .replace p v => setNestedValue j (splitPath p) v
  | .add p v => setNestedValue j (splitPath p) v
  | .remove p => removeNestedValue j (splitPath p)

/-- `applyPatch` from gameStore.ts as a pure fold: ops applied in list
order to one value; a thrown TypeError (`none`) aborts.  This is the
functional content of the loop; the observable store effect, including
the non-atomic abort through the shallow copy, is `runPatch` below. -/
def applyPatch (j : Json) (ops : List PatchOp) : Option Json :=
  match ops with
  | [] => some j
  | op :: rest =>
      match applyOp j op with
      | some j2 => applyPatch j2 rest
      | none => none

/-- Two paths diverge when neither is a prefix of the other: they agree
up to some index where both have differing segments. -/
def diverges : List String → List String → Bool
  | k1 :: p, k2 :: q => if k1 = k2 then diverges p q else true
  | _, _ => false

/-! ### The shallow copy `{...state}` and the in-place patch loop.

`applyPatch` starts from `let newState = {...state}`: a shallow copy
whose top-level slots are fresh but whose nested objects are shared with
the stored state.  An op therefore mutates the stored state in place
whenever it writes below a top-level key it has not replaced, while
writes to the copy's own top-level slots (a one-segment path, or the
creation of an absent top-level key) are invisible to the stored state.
When a later op throws, `set` is never called and the store keeps the
original object bearing exactly those shared deep mutations. -/

/-- `{...j}`: same fields for an object, `{}` for a primitive. -/
def shallowCopy : Json → Json
  | .obj m => .obj m
  | _ => .obj []

/-- Write a top-level field (no-op on a primitive). -/
def setTopField : Json → String → Json → Json
  | .obj m, k, v => .obj (setKey m k v)
  | j, _, _ => j

/-- The evolving shallow copy, the stored state as visible through the
shared nested objects, and the top-level keys the copy has detached
from the stored state by writing its own slot. -/
structure CopyState where
  copy : Json
  origView : Json
  detached : List String

def initCopy (cur : Json) : CopyState :=
  { copy := shallowCopy cur, origView := cur, detached := [] }

/-- Top-level keys detached by this op: a one-segment path writes the
copy's own slot; a deeper path detaches its head only when it creates
that absent key. -/
def newDetached (st : CopyState) (op : PatchOp) : List String :=
  match splitPath (PatchOp.path op) with
  | [] => st.detached
  | [k] => k :: st.detached
  | k :: _ :: _ =>
      if (getField st.copy k).isNone then k :: st.detached else st.detached

/-- How the stored state looks after this op: a deep write below a
present, non-detached top-level key mutates the shared object in place,
so the stored state's field becomes the copy's; every other write stays
inside the copy. -/
def newOrigView (st : CopyState) (op : PatchOp) (c2 : Json) : Json :=
  match splitPath (PatchOp.path op) with
  | [] => st.origView
  | [_] => st.origView
  | k :: _ :: _ =>
      match getField st.copy k with
      | none => st.origView
      | some _ =>
          if k ∈ st.detached then st.origView
          else setTopField st.origView k ((getField c2 k).getD .null)

/-- One iteration of the patch loop over the shallow copy. -/
def stepCopy (st : CopyState) (op : PatchOp) : Option CopyState :=
  match applyOp st.copy op with
  | none => none
  | some c2 =>
      some { copy := c2, origView := newOrigView st op c2,
             detached := newDetached st op }

/-- The state the store holds after the `state_patch` case: the final
copy when every op applied, else — `set` never reached — the original
object with the shared deep mutations of the successful prefix. -/
def runPatch : CopyState → List PatchOp → Json
  | st, [] => st.copy
  | st, op :: rest =>
      match stepCopy st op with
      | some st2 => runPatch st2 rest
      | none => st.origView

/-! ### The client store and `handleInboundEvent` -/

structure ChatMsg where
  player_id : String
  player_name : String
  text : String
  timestamp : Int
deriving DecidableEq

/-- `InboundWSEvent` from types/game.ts (payload fields the handler uses). -/
inductive InboundEvent where
  | state_full (state : Json)
  | state_patch (version : Int) (ops : List PatchOp)
  | error (code : String) (message : String)
  | effect (effect_type : String)
  | chat (msg : ChatMsg)
  | join_success (player_id : String)

/-- The slice of the zustand store that `handleInboundEvent` can touch. -/
structure ClientStore where
  gameState : Option Json
  chatMessages : List ChatMsg

def initialStore : ClientStore := { gameState := none, chatMessages := [] }

/-- `array.slice(-n)`: the last `n` elements (all of them when shorter). -/
def lastN (n : Nat) (l : List α) : List α := l.drop (l.length - n)

/-- `handleInboundEvent` from gameStore.ts.  `state_patch` applies the
ops on top of an existing state only, through the shallow copy
(`runPatch`): on full success the copy is stored, and on a throw the
store keeps the original object carrying the successful prefix's shared
deep mutations — abort is not atomic; `error` and `effect` only raise
toasts; `chat` appends and keeps the last 50 messages; any other event
type falls through the switch. -/
def handleInboundEvent (ev : InboundEvent) (s : ClientStore) : ClientStore :=
  match ev with
  | .state_full st => { s with gameState := some st }
  | .state_patch _ ops =>
      match s.gameState with
      | some cur => { s with gameState := some (runPatch (initCopy cur) ops) }
      | none => s
  | .error _ _ => s
  | .effect _ => s
  | .chat m => { s with chatMessages := lastN 50 (s.chatMessages ++ [m]) }
  | .join_success _ => s

def handleAll (evs : List InboundEvent) (s : ClientStore) : ClientStore :=
  evs.foldl (fun st e => handleInboundEvent e st) s

/-- The chat messages carried by a list of inbound events, in order. -/
def chatsOf (evs : List InboundEvent) : List ChatMsg :=
  evs.filterMap (fun e => match e with | .chat m => some m | _ => none)

/-- The `version` field of the stored game state. -/
def storedVersion (s : ClientStore) : Option Json :=
  s.gameState.bind (fun j => getField j "version")

/-! ### Card selection (UI actions in gameStore.ts) -/

/-- `selectCard`: no-op when already selected, else append. -/
def selectCard (sel : List String) (cardId : String) : List String :=
  if cardId ∈ sel then sel else sel ++ [cardId]

/-- `deselectCard`: `filter(id => id !== cardId)`. -/
def deselectCard (sel : List String) (cardId : String) : List String :=
  sel.filter (fun id => id ≠ cardId)

/-- `clearSelection`. -/
def clearSelection (_sel : List String) : List String := []

inductive SelAction where
  | select (cardId : String)
  | deselect (cardId : String)
  | clear

def selStep (sel : List String) : SelAction → List String
  | .select c => selectCard sel c
  | .deselect c => deselectCard sel c
  | .clear => clearSelection sel

/-- Running a sequence of selection actions from the empty selection. -/
def runSel (acts : List SelAction) : List String :=
  acts.foldl selStep []

/-! ### Lobby gates (Lobby component) -/

structure LobbyPlayer where
  id : String
  name : String
  is_bot : Bool
  connected : Bool
  seat : Nat

/-- `canStart = players.length >= 3`. -/
def lobbyCanStart (players : List LobbyPlayer) : Bool :=
  decide (3 ≤ players.length)

/-- `canAddBots = players.length < 5`. -/
def lobbyCanAddBots (players : List LobbyPlayer) : Bool :=
  decide (players.length < 5)

/-! ### `parseCard` from the Card component (Card.tsx).
Tokens are modelled as character lists; `id[i]` out of range (undefined)
is modelled as the empty string, reachable only on malformed tokens. -/

def jsCharAt (l : List Char) (i : Nat) : List Char :=
  match l[i]? with
  | some c => [c]
  | none => []

def jokerChars : List Char := ['J', 'O', 'K', 'E', 'R']

def tenChars : List Char := ['1', '0']

/-- `parseCard` from Card.tsx, returning the `(rank, suit)` string pair. -/
def parseCardC (id : List Char) : List Char × List Char :=
  if jokerChars.isPrefixOf id then (jokerChars, [])
  else if tenChars.isPrefixOf id then (tenChars, jsCharAt id 2)
  else (jsCharAt id 0, jsCharAt id 1)

/-- The 13 rank spellings of valid non-Joker tokens. -/
def rankTokens : List (List Char) :=
  [['3'], ['4'], ['5'], ['6'], ['7'], ['8'], ['9'], ['1', '0'],
   ['J'], ['Q'], ['K'], ['A'], ['2']]

/-- The 4 suit letters. -/
def suitChars : List Char := ['S', 'H', 'D', 'C']

/-! ### `NORMAL_ORDER`, `parseCard` and `sortHand` from GameTable.tsx.
The JS array mixes numbers and strings and the parsed rank can be `NaN`
(`parseInt` on a non-digit), so rank values are modelled as a sum. -/

inductive RankVal where
  | num (n : Int)
  | str (s : String)
  | nan
deriving DecidableEq

/-- `NORMAL_ORDER = [3,4,5,6,7,8,9,10,'J','Q','K','A',2,'JOKER']`. -/
def NORMAL_ORDER : List RankVal :=
  [.num 3, .num 4, .num 5, .num 6, .num 7, .num 8, .num 9, .num 10,
   .str "J", .str "Q", .str "K", .str "A", .num 2, .str "JOKER"]

/-- JavaScript strict equality on these values: `NaN === x` is false. -/
def strictEq : RankVal → RankVal → Bool
  | .num a, .num b => a == b
  | .str a, .str b => a == b
  | _, _ => false

/-- `Array.prototype.indexOf`: first strict-equality match, else -1. -/
def jsIndexOf (l : List RankVal) (x : RankVal) : Int :=
  match l.findIdx? (fun y => strictEq y x) with
  | some i => (i : Int)
  | none => -1

/-- `parseInt` restricted to the strings this code feeds it: the value of
the longest digit prefix, `NaN` when there is none. -/
def parseIntJS (s : List Char) : RankVal :=
  let d := s.takeWhile (fun c => c.isDigit)
  match d with
  | [] => .nan
  | _ => .num (d.foldl (fun acc c => acc * 10 + ((c.toNat : Int) - 48)) 0)

/-- The rank computed by `parseCard` in GameTable.tsx.  Its second branch
tests the LAST character of the token (the suit position) against
`['J','Q','K','A']`, so a face-card token such as `JS` falls through to
`parseInt('J')`, which is `NaN`. -/
def parseCardRank (id : List Char) : RankVal :=
  if jokerChars.isPrefixOf id then .str "JOKER"
  else if (id.getLast?.map (fun c => ['J', 'Q', 'K', 'A'].contains c)).getD false then
    .str (String.mk id.dropLast)
  else if tenChars.isPrefixOf id then .num 10
  else parseIntJS id.dropLast

/-- `NORMAL_ORDER.indexOf(parseCard(cardId).rank)`, the sort key. -/
def rankIdx (id : List Char) : Int :=
  jsIndexOf NORMAL_ORDER (parseCardRank id)

/-- `sortHand` from GameTable.tsx: `Array.prototype.sort` with comparator
`indexA - indexB`, i.e. a stable sort by `rankIdx`. -/
def sortHand (hand : List (List Char)) : List (List Char) :=
  List.insertionSort (fun a b => rankIdx a ≤ rankIdx b) hand

/-- The rank positions the specification assigns to the 14 symbols
(3,...,10,J,Q,K,A,2,Joker), read off a correctly parsed token. -/
def specRankPos (id : List Char) : Option Nat :=
  if jokerChars.isPrefixOf id then some 13
  else (rankTokens.findIdx? (fun r => r = id.dropLast)).map (fun i => i)

/-! ### Spec-modelled engine card accounting (claim C7).

Modelled from the spec: the authoritative engine backend
(`president_engine` / app.py) is not present under `src/`; only its
packaging and documentation are.  The model below follows spec §3
(Hand/RoomState: hands, discard pile, current pile, undealt deck) and
§4.2–4.5 for the card-moving engine operations (play, gift, reset,
discard, exchange): a play moves owned cards from the hand onto the
pile, sending the beaten pile to the discard; a gift or exchange moves
owned cards from one hand to another; a reset clears the pile to the
discard; a ten-discard moves owned cards from the hand to the discard;
every validation failure mutates nothing. -/
structure RoomCards where
  hands : List (Multiset String)
  pile : Multiset String
  discard : Multiset String
  deck : Multiset String

/-- All card identities in the room: hands + pile + discard + deck. -/
def totalCards (s : RoomCards) : Multiset String :=
  s.hands.sum + s.pile + s.discard + s.deck

/-- Modelled from the spec: the card-moving engine operations of
§4.2–4.5, identified by acting seat and chosen card identities. -/
inductive EngineOp where
  | play (seat : Nat) (cards : Multiset String)
  | gift (fromSeat toSeat : Nat) (cards : Multiset String)
  | reset
  | discardSel (seat : Nat) (cards : Multiset String)
  | exchange (fromSeat toSeat : Nat) (cards : Multiset String)

/-- Modelled from the spec: moving owned cards from one hand to another
(gift distribution, exchange transfer/return).  Self-moves and
out-of-range seats are rejected without mutation. -/
def moveCards (s : RoomCards) (i j : Nat) (cards : Multiset String) : RoomCards :=
  match s.hands[i]?, s.hands[j]? with
  | some hi, some hj =>
      if i ≠ j ∧ cards ≤ hi then
        { s with hands := (s.hands.set i (hi - cards)).set j (hj + cards) }
      else s
  | _, _ => s

/-- Modelled from the spec: one engine mutation; ownership violations
and bad seats leave the state unchanged (no partial application). -/
def engineStep (s : RoomCards) (op : EngineOp) : RoomCards :=
  match op with
  | .play i cards =>
      match s.hands[i]? with
      | some hi =>
          if cards ≤ hi then
            { hands := s.hands.set i (hi - cards)
              pile := cards
              discard := s.discard + s.pile
              deck := s.deck }
          else s
      | none => s
  | .gift i j cards => moveCards s i j cards
  | .reset =>
      { hands := s.hands, pile := 0, discard := s.discard + s.pile, deck := s.deck }
  | .discardSel i cards =>
      match s.hands[i]? with
      | some hi =>
          if cards ≤ hi then
            { hands := s.hands.set i (hi - cards)
              pile := s.pile
              discard := s.discard + cards
              deck := s.deck }
          else s
      | none => s
  | .exchange i j cards => moveCards s i j cards

/-- Modelled from the spec: a sequence of engine mutations. -/
def engineRun (s : RoomCards) (ops : List EngineOp) : RoomCards :=
  ops.foldl engineStep s

/-! ### Lemmas about the JS object primitives -/

theorem getKey_setKey_self (m : List (String × Json)) (k : String) (v : Json) :
    getKey (setKey m k v) k = some v := by
  induction m with
  | nil => simp [getKey, setKey]
  | cons kv rest ih =>
      obtain ⟨k1, v1⟩ := kv
      by_cases h : k1 = k
      · simp [getKey, setKey, h]
      · simp [getKey, setKey, h, ih]

theorem getKey_setKey_ne (m : List (String × Json)) (k k2 : String) (v : Json)
    (hne : k2 ≠ k) : getKey (setKey m k v) k2 = getKey m k2 := by
  induction m with
  | nil => simp [getKey, setKey, Ne.symm hne]
  | cons kv rest ih =>
      obtain ⟨k1, v1⟩ := kv
      by_cases h : k1 = k
      · subst h
        simp [getKey, setKey, Ne.symm hne]
      · by_cases h2 : k1 = k2 <;> simp [getKey, setKey, h, h2, ih, hne]

theorem eraseKey_cons (k1 : String) (v1 : Json)
    (rest : List (String × Json)) (k : String) :
    eraseKey ((k1, v1) :: rest) k
      = if k1 = k then eraseKey rest k else (k1, v1) :: eraseKey rest k := by
  by_cases h : k1 = k <;> simp [eraseKey, List.filter_cons, h]

theorem getKey_eraseKey_self (m : List (String × Json)) (k : String) :
    getKey (eraseKey m k) k = none := by
  induction m with
  | nil => simp [getKey, eraseKey]
  | cons kv rest ih =>
      obtain ⟨k1, v1⟩ := kv
      by_cases h : k1 = k
      · simpa [eraseKey_cons, h] using ih
      · simpa [eraseKey_cons, getKey, h] using ih

theorem getKey_eraseKey_ne (m : List (String × Json)) (k k2 : String)
    (hne : k2 ≠ k) : getKey (eraseKey m k) k2 = getKey m k2 := by
  induction m with
  | nil => simp [getKey, eraseKey]
  | cons kv rest ih =>
      obtain ⟨k1, v1⟩ := kv
      by_cases h : k1 = k
      · subst h
        simpa [eraseKey_cons, getKey, Ne.symm hne] using ih
      · by_cases h2 : k1 = k2 <;>
          simp [eraseKey_cons, getKey, h, h2, ih, hne]

/-! ### Lemmas about the patch application functions -/

/-- A successful `replace`/`add` write makes the value readable at its
(nonempty) path. -/
theorem setNestedValue_getPath (p : List String) :
    ∀ (j v j2 : Json), p ≠ [] → setNestedValue j p v = some j2 →
      getPath j2 p = some v := by
  induction p with
  | nil => intro j v j2 h; exact absurd rfl h
  | cons k rest ih =>
      intro j v j2 _ hset
      cases rest with
      | nil =>
          cases j with
          | obj m =>
              simp only [setNestedValue, Option.some.injEq] at hset
              subst hset
              simp [getPath, getKey_setKey_self]
          | null => simp [setNestedValue] at hset
          | bool b => simp [setNestedValue] at hset
          | num n => simp [setNestedValue] at hset
          | str s => simp [setNestedValue] at hset
      | cons k2 rest2 =>
          cases j with
          | obj m =>
              simp only [setNestedValue] at hset
              cases hrec : setNestedValue ((getKey m k).getD (.obj [])) (k2 :: rest2) v with
              | none => rw [hrec] at hset; simp at hset
              | some c =>
                  rw [hrec] at hset
                  simp only [Option.some.injEq] at hset
                  subst hset
                  have hc := ih ((getKey m k).getD (.obj [])) v c (by simp) hrec
                  simp [getPath, getKey_setKey_self, hc]
          | null => simp [setNestedValue] at hset
          | bool b => simp [setNestedValue] at hset
          | num n => simp [setNestedValue] at hset
          | str s => simp [setNestedValue] at hset

/-- A successful `remove` leaves nothing readable at its (nonempty) path. -/
theorem removeNestedValue_getPath (p : List String) :
    ∀ (j j2 : Json), p ≠ [] → removeNestedValue j p = some j2 →
      getPath j2 p = none := by
  induction p with
  | nil => intro j j2 h; exact absurd rfl h
  | cons k rest ih =>
      intro j j2 _ hrem
      cases rest with
      | nil =>
          cases j with
          | obj m =>
              simp only [removeNestedValue, Option.some.injEq] at hrem
              subst hrem
              simp [getPath, getKey_eraseKey_self]
          | null => simp [removeNestedValue] at hrem
          | bool b =>
              simp only [removeNestedValue, Option.some.injEq] at hrem
              subst hrem; simp [getPath]
          | num n =>
              simp only [removeNestedValue, Option.some.injEq] at hrem
              subst hrem; simp [getPath]
          | str s2 =>
              by_cases hown : jsStringOwnKey s2 k = true
              · simp [removeNestedValue, hown] at hrem
              · simp only [removeNestedValue, if_neg hown,
                  Option.some.injEq] at hrem
                subst hrem; simp [getPath]
      | cons k2 rest2 =>
          cases j with
          | obj m =>
              cases hget : getKey m k with
              | none =>
                  simp only [removeNestedValue, hget, Option.some.injEq] at hrem
                  subst hrem
                  simp [getPath, hget]
              | some child =>
                  cases hrec : removeNestedValue child (k2 :: rest2) with
                  | none => simp [removeNestedValue, hget, hrec] at hrem
                  | some c =>
                      simp only [removeNestedValue, hget, hrec,
                        Option.some.injEq] at hrem
                      subst hrem
                      have hc := ih child c (by simp) hrec
                      simp [getPath, getKey_setKey_self, hc]
          | null => simp [removeNestedValue] at hrem
          | bool b => simp [removeNestedValue] at hrem
          | num n => simp [removeNestedValue] at hrem
          | str s => simp [removeNestedValue] at hrem

/-- A `remove` whose first path segment is an absent intermediate key
returns the state unchanged. -/
theorem removeNestedValue_absent (m : List (String × Json)) (k : String)
    (p : List String) (hp : p ≠ []) (habs : getKey m k = none) :
    removeNestedValue (.obj m) (k :: p) = some (.obj m) := by
  cases p with
  | nil => exact absurd rfl hp
  | cons k2 rest => simp [removeNestedValue, habs]

/-- A successful write whose path does not start at field `k` leaves the
top-level field `k` unchanged. -/
theorem setNestedValue_getField (j j2 : Json) (p : List String) (v : Json)
    (k : String) (hhead : p.head? ≠ some k)
    (hset : setNestedValue j p v = some j2) :
    getField j2 k = getField j k := by
  cases p with
  | nil =>
      simp only [setNestedValue, Option.some.injEq] at hset
      subst hset; rfl
  | cons k1 rest =>
      have hk : k ≠ k1 := by
        intro h; subst h; simp at hhead
      cases rest with
      | nil =>
          cases j with
          | obj m =>
              simp only [setNestedValue, Option.some.injEq] at hset
              subst hset
              simp [getField, getKey_setKey_ne _ _ _ _ hk]
          | null => simp [setNestedValue] at hset
          | bool b => simp [setNestedValue] at hset
          | num n => simp [setNestedValue] at hset
          | str s => simp [setNestedValue] at hset
      | cons k2 rest2 =>
          cases j with
          | obj m =>
              cases hrec : setNestedValue ((getKey m k1).getD (.obj []))
                  (k2 :: rest2) v with
              | none => simp [setNestedValue, hrec] at hset
              | some c =>
                  simp only [setNestedValue, hrec, Option.some.injEq] at hset
                  subst hset
                  simp [getField, getKey_setKey_ne _ _ _ _ hk]
          | null => simp [setNestedValue] at hset
          | bool b => simp [setNestedValue] at hset
          | num n => simp [setNestedValue] at hset
          | str s => simp [setNestedValue] at hset

/-- A successful delete whose path does not start at field `k` leaves the
top-level field `k` unchanged. -/
theorem removeNestedValue_getField (j j2 : Json) (p : List String)
    (k : String) (hhead : p.head? ≠ some k)
    (hrem : removeNestedValue j p = some j2) :
    getField j2 k = getField j k := by
  cases p with
  | nil =>
      simp only [removeNestedValue, Option.some.injEq] at hrem
      subst hrem; rfl
  | cons k1 rest =>
      have hk : k ≠ k1 := by
        intro h; subst h; simp at hhead
      cases rest with
      | nil =>
          cases j with
          | obj m =>
              simp only [removeNestedValue, Option.some.injEq] at hrem
              subst hrem
              simp [getField, getKey_eraseKey_ne _ _ _ hk]
          | null => simp [removeNestedValue] at hrem
          | bool b =>
              simp only [removeNestedValue, Option.some.injEq] at hrem
              subst hrem; rfl
          | num n =>
              simp only [removeNestedValue, Option.some.injEq] at hrem
              subst hrem; rfl
          | str s2 =>
              by_cases hown : jsStringOwnKey s2 k1 = true
              · simp [removeNestedValue, hown] at hrem
              · simp only [removeNestedValue, if_neg hown,
                  Option.some.injEq] at hrem
                subst hrem; rfl
      | cons k2 rest2 =>
          cases j with
          | obj m =>
              cases hget : getKey m k1 with
              | none =>
                  simp only [removeNestedValue, hget, Option.some.injEq] at hrem
                  subst hrem; rfl
              | some child =>
                  cases hrec : removeNestedValue child (k2 :: rest2) with
                  | none => simp [removeNestedValue, hget, hrec] at hrem
                  | some c =>
                      simp only [removeNestedValue, hget, hrec,
                        Option.some.injEq] at hrem
                      subst hrem
                      simp [getField, getKey_setKey_ne _ _ _ _ hk]
          | null => simp [removeNestedValue] at hrem
          | bool b => simp [removeNestedValue] at hrem
          | num n => simp [removeNestedValue] at hrem
          | str s => simp [removeNestedValue] at hrem

/-- Per-op top-level frame property. -/
theorem applyOp_getField (j j2 : Json) (op : PatchOp) (k : String)
    (hhead : (splitPath (PatchOp.path op)).head? ≠ some k)
    (happ : applyOp j op = some j2) :
    getField j2 k = getField j k := by
  cases op with
  | replace p v => exact setNestedValue_getField j j2 (splitPath p) v k hhead happ
  | add p v => exact setNestedValue_getField j j2 (splitPath p) v k hhead happ
  | remove p => exact removeNestedValue_getField j j2 (splitPath p) k hhead happ

/-- Whole-patch top-level frame property: a field whose name is not the
first segment of any op's path keeps its previous value. -/
theorem applyPatch_getField (ops : List PatchOp) :
    ∀ (j j2 : Json) (k : String), applyPatch j ops = some j2 →
      (∀ op ∈ ops, (splitPath (PatchOp.path op)).head? ≠ some k) →
      getField j2 k = getField j k := by
  induction ops with
  | nil =>
      intro j j2 k happ _
      simp only [applyPatch, Option.some.injEq] at happ
      subst happ; rfl
  | cons op rest ih =>
      intro j j2 k happ hnone
      cases hop : applyOp j op with
      | none => simp [applyPatch, hop] at happ
      | some jmid =>
          simp only [applyPatch, hop] at happ
          have h1 := applyOp_getField j jmid op k (hnone op (by simp)) hop
          have h2 := ih jmid j2 k happ (fun o ho => hnone o (by simp [ho]))
          rw [h2, h1]

/-- `applyPatch` over concatenated op lists. -/
theorem applyPatch_append (ops1 ops2 : List PatchOp) :
    ∀ j : Json, applyPatch j (ops1 ++ ops2)
      = (applyPatch j ops1).bind (fun j2 => applyPatch j2 ops2) := by
  induction ops1 with
  | nil => intro j; simp [applyPatch]
  | cons op rest ih =>
      intro j
      cases hop : applyOp j op with
      | none => simp [applyPatch, hop]
      | some jmid => simp [applyPatch, hop, ih]

/-- A successful write at a path diverging from `q` leaves the value at
`q` unchanged, at every depth. -/
theorem setNestedValue_getPath_diverges (p : List String) :
    ∀ (q : List String) (j v j2 : Json), diverges p q = true →
      setNestedValue j p v = some j2 → getPath j2 q = getPath j q := by
  induction p with
  | nil => intro q j v j2 hd _; simp [diverges] at hd
  | cons k1 p2 ih =>
      intro q j v j2 hd hset
      cases q with
      | nil => simp [diverges] at hd
      | cons k2 q2 =>
          by_cases hk : k1 = k2
          · subst hk
            have hd2 : diverges p2 q2 = true := by simpa [diverges] using hd
            cases p2 with
            | nil => simp [diverges] at hd2
            | cons kk pp =>
                cases q2 with
                | nil => simp [diverges] at hd2
                | cons kq qq =>
                    cases j with
                    | obj m =>
                        cases hrec : setNestedValue
                            ((getKey m k1).getD (.obj [])) (kk :: pp) v with
                        | none => simp [setNestedValue, hrec] at hset
                        | some c =>
                            simp only [setNestedValue, hrec,
                              Option.some.injEq] at hset
                            subst hset
                            have hcq := ih (kq :: qq)
                              ((getKey m k1).getD (.obj [])) v c hd2 hrec
                            cases hget : getKey m k1 with
                            | some child =>
                                rw [hget] at hcq
                                simp [getPath, getKey_setKey_self, hget, hcq]
                            | none =>
                                rw [hget] at hcq
                                simp only [Option.getD] at hcq
                                simp [getPath, getKey_setKey_self, hget, hcq,
                                  getKey]
                    | null => simp [setNestedValue] at hset
                    | bool b => simp [setNestedValue] at hset
                    | num n => simp [setNestedValue] at hset
                    | str s2 => simp [setNestedValue] at hset
          · have hne : k2 ≠ k1 := fun h => hk h.symm
            cases p2 with
            | nil =>
                cases j with
                | obj m =>
                    simp only [setNestedValue, Option.some.injEq] at hset
                    subst hset
                    simp [getPath, getKey_setKey_ne m k1 k2 v hne]
                | null => simp [setNestedValue] at hset
                | bool b => simp [setNestedValue] at hset
                | num n => simp [setNestedValue] at hset
                | str s2 => simp [setNestedValue] at hset
            | cons kk pp =>
                cases j with
                | obj m =>
                    cases hrec : setNestedValue
                        ((getKey m k1).getD (.obj [])) (kk :: pp) v with
                    | none => simp [setNestedValue, hrec] at hset
                    | some c =>
                        simp only [setNestedValue, hrec,
                          Option.some.injEq] at hset
                        subst hset
                        simp [getPath, getKey_setKey_ne m k1 k2 c hne]
                | null => simp [setNestedValue] at hset
                | bool b => simp [setNestedValue] at hset
                | num n => simp [setNestedValue] at hset
                | str s2 => simp [setNestedValue] at hset

/-- A successful delete at a path diverging from `q` leaves the value at
`q` unchanged, at every depth. -/
theorem removeNestedValue_getPath_diverges (p : List String) :
    ∀ (q : List String) (j j2 : Json), diverges p q = true →
      removeNestedValue j p = some j2 → getPath j2 q = getPath j q := by
  induction p with
  | nil => intro q j j2 hd _; simp [diverges] at hd
  | cons k1 p2 ih =>
      intro q j j2 hd hrem
      cases q with
      | nil => simp [diverges] at hd
      | cons k2 q2 =>
          by_cases hk : k1 = k2
          · subst hk
            have hd2 : diverges p2 q2 = true := by simpa [diverges] using hd
            cases p2 with
            | nil => simp [diverges] at hd2
            | cons kk pp =>
                cases q2 with
                | nil => simp [diverges] at hd2
                | cons kq qq =>
                    cases j with
                    | obj m =>
                        cases hget : getKey m k1 with
                        | none =>
                            simp only [removeNestedValue, hget,
                              Option.some.injEq] at hrem
                            subst hrem; rfl
                        | some child =>
                            cases hrec : removeNestedValue child
                                (kk :: pp) with
                            | none =>
                                simp [removeNestedValue, hget, hrec] at hrem
                            | some c =>
                                simp only [removeNestedValue, hget, hrec,
                                  Option.some.injEq] at hrem
                                subst hrem
                                have hcq := ih (kq :: qq) child c hd2 hrec
                                simp [getPath, getKey_setKey_self, hget, hcq]
                    | null => simp [removeNestedValue] at hrem
                    | bool b => simp [removeNestedValue] at hrem
                    | num n => simp [removeNestedValue] at hrem
                    | str s2 => simp [removeNestedValue] at hrem
          · have hne : k2 ≠ k1 := fun h => hk h.symm
            cases p2 with
            | nil =>
                cases j with
                | obj m =>
                    simp only [removeNestedValue, Option.some.injEq] at hrem
                    subst hrem
                    simp [getPath, getKey_eraseKey_ne m k1 k2 hne]
                | null => simp [removeNestedValue] at hrem
                | bool b =>
                    simp only [removeNestedValue, Option.some.injEq] at hrem
                    subst hrem; rfl
                | num n =>
                    simp only [removeNestedValue, Option.some.injEq] at hrem
                    subst hrem; rfl
                | str s2 =>
                    by_cases hown : jsStringOwnKey s2 k1 = true
                    · simp [removeNestedValue, hown] at hrem
                    · simp only [removeNestedValue, if_neg hown,
                        Option.some.injEq] at hrem
                      subst hrem; rfl
            | cons kk pp =>
                cases j with
                | obj m =>
                    cases hget : getKey m k1 with
                    | none =>
                        simp only [removeNestedValue, hget,
                          Option.some.injEq] at hrem
                        subst hrem; rfl
                    | some child =>
                        cases hrec : removeNestedValue child (kk :: pp) with
                        | none =>
                            simp [removeNestedValue, hget, hrec] at hrem
                        | some c =>
                            simp only [removeNestedValue, hget, hrec,
                              Option.some.injEq] at hrem
                            subst hrem
                            simp [getPath, getKey_setKey_ne m k1 k2 c hne]
                | null => simp [removeNestedValue] at hrem
                | bool b => simp [removeNestedValue] at hrem
                | num n => simp [removeNestedValue] at hrem
                | str s2 => simp [removeNestedValue] at hrem

/-- Per-op path frame property under divergence. -/
theorem applyOp_getPath_diverges (j j2 : Json) (op : PatchOp)
    (q : List String)
    (hd : diverges (splitPath (PatchOp.path op)) q = true)
    (happ : applyOp j op = some j2) : getPath j2 q = getPath j q := by
  cases op with
  | replace p v =>
      exact setNestedValue_getPath_diverges (splitPath p) q j v j2 hd happ
  | add p v =>
      exact setNestedValue_getPath_diverges (splitPath p) q j v j2 hd happ
  | remove p =>
      exact removeNestedValue_getPath_diverges (splitPath p) q j j2 hd happ

/-- Whole-patch path frame property: any path diverging from every op's
path keeps its previous value. -/
theorem applyPatch_getPath_diverges (ops : List PatchOp) :
    ∀ (j j2 : Json) (q : List String), applyPatch j ops = some j2 →
      (∀ op ∈ ops, diverges (splitPath (PatchOp.path op)) q = true) →
      getPath j2 q = getPath j q := by
  induction ops with
  | nil =>
      intro j j2 q h _
      simp only [applyPatch, Option.some.injEq] at h
      subst h; rfl
  | cons op rest ih =>
      intro j j2 q h hall
      cases hop : applyOp j op with
      | none => simp [applyPatch, hop] at h
      | some jmid =>
          simp only [applyPatch, hop] at h
          rw [ih jmid j2 q h (fun o ho => hall o (by simp [ho]))]
          exact applyOp_getPath_diverges j jmid op q (hall op (by simp)) hop

/-! ### Lemmas about the shallow-copy patch run -/

theorem shallowCopy_getField (j : Json) (k : String) :
    getField (shallowCopy j) k = getField j k := by
  cases j <;> rfl

theorem setTopField_getField_ne (j : Json) (k k2 : String) (v : Json)
    (hne : k2 ≠ k) : getField (setTopField j k v) k2 = getField j k2 := by
  cases j with
  | obj m => simp [setTopField, getField, getKey_setKey_ne m k k2 v hne]
  | null => rfl
  | bool b => rfl
  | num n => rfl
  | str s2 => rfl

theorem stepCopy_some (st : CopyState) (op : PatchOp) (st2 : CopyState)
    (h : stepCopy st op = some st2) :
    applyOp st.copy op = some st2.copy
    ∧ st2.origView = newOrigView st op st2.copy := by
  cases happ : applyOp st.copy op with
  | none => simp [stepCopy, happ] at h
  | some c2 =>
      simp only [stepCopy, happ, Option.some.injEq] at h
      subst h
      exact ⟨rfl, rfl⟩

/-- The stored-state view is only written at the head key of a deep op. -/
theorem newOrigView_getField (st : CopyState) (op : PatchOp) (c2 : Json)
    (k : String) (hhead : (splitPath (PatchOp.path op)).head? ≠ some k) :
    getField (newOrigView st op c2) k = getField st.origView k := by
  cases hsp : splitPath (PatchOp.path op) with
  | nil => simp [newOrigView, hsp]
  | cons k1 rest =>
      have hk : k ≠ k1 := by
        intro h; subst h; rw [hsp] at hhead; simp at hhead
      cases rest with
      | nil => simp [newOrigView, hsp]
      | cons kk pp =>
          simp only [newOrigView, hsp]
          cases hg : getField st.copy k1 with
          | none => rfl
          | some x =>
              by_cases hdet : k1 ∈ st.detached
              · simp [hdet]
              · simp [hdet, setTopField_getField_ne st.origView k1 k _ hk]

/-- A field no op addresses at top level survives the patch run with the
same value, whether the run completes or aborts mid-way. -/
theorem runPatch_getField (ops : List PatchOp) :
    ∀ (st : CopyState) (k : String) (x : Option Json),
      (∀ op ∈ ops, (splitPath (PatchOp.path op)).head? ≠ some k) →
      getField st.copy k = x → getField st.origView k = x →
      getField (runPatch st ops) k = x := by
  induction ops with
  | nil => intro st k x _ hc _; simpa [runPatch] using hc
  | cons op rest ih =>
      intro st k x hnone hc ho
      cases hstep : stepCopy st op with
      | none => simpa [runPatch, hstep] using ho
      | some st2 =>
          simp only [runPatch, hstep]
          obtain ⟨happ, horig⟩ := stepCopy_some st op st2 hstep
          have hc2 : getField st2.copy k = x := by
            rw [applyOp_getField st.copy st2.copy op k
              (hnone op (by simp)) happ]
            exact hc
          have ho2 : getField st2.origView k = x := by
            rw [horig, newOrigView_getField st op st2.copy k
              (hnone op (by simp))]
            exact ho
          exact ih st2 k x (fun o hoo => hnone o (by simp [hoo])) hc2 ho2

/-- When every op applies, the run stores exactly the functional fold's
result (the final copy). -/
theorem runPatch_of_applyPatch (ops : List PatchOp) :
    ∀ (st : CopyState) (ns : Json), applyPatch st.copy ops = some ns →
      runPatch st ops = ns := by
  induction ops with
  | nil =>
      intro st ns h
      simp only [applyPatch, Option.some.injEq] at h
      subst h; rfl
  | cons op rest ih =>
      intro st ns h
      cases happ : applyOp st.copy op with
      | none => simp [applyPatch, happ] at h
      | some c2 =>
          simp only [applyPatch, happ] at h
          have hstep : stepCopy st op
              = some { copy := c2, origView := newOrigView st op c2,
                       detached := newDetached st op } := by
            simp [stepCopy, happ]
          simp only [runPatch, hstep]
          exact ih _ ns h

/-! ### Lemmas about the store event handler -/

theorem lastN_zero (l : List α) : lastN 0 l = [] := by
  simp [lastN]

theorem length_lastN_le (n : Nat) (l : List α) : (lastN n l).length ≤ n := by
  simp only [lastN, List.length_drop]
  omega

/-- Re-windowing after one append: keeping the last `n` of an already
windowed list extended by one element matches windowing the full list. -/
theorem lastN_append_one (n : Nat) (l : List α) (m : α) :
    lastN n (lastN n l ++ [m]) = lastN n (l ++ [m]) := by
  by_cases hle : l.length ≤ n
  · have h0 : l.length - n = 0 := by omega
    simp [lastN, h0]
  · rcases Nat.eq_zero_or_pos n with hn | hn
    · subst hn
      simp [lastN_zero, lastN]
    · have hlen : (l.drop (l.length - n)).length = n := by
        simp only [List.length_drop]; omega
      simp only [lastN, List.length_append, List.length_drop,
        List.length_singleton]
      rw [show l.length - (l.length - n) + 1 - n = 1 by omega,
        show l.length + 1 - n = (l.length - n) + 1 by omega]
      rw [List.drop_append_of_le_length (by rw [hlen]; omega),
        List.drop_append_of_le_length (by omega)]
      simp [List.drop_drop, Nat.add_comm]

/-- Every non-chat inbound event leaves `chatMessages` unchanged. -/
theorem chatMessages_non_chat (ev : InboundEvent) (s : ClientStore)
    (h : ∀ m, ev ≠ .chat m) :
    (handleInboundEvent ev s).chatMessages = s.chatMessages := by
  cases ev with
  | chat m => exact absurd rfl (h m)
  | state_patch v ops =>
      cases hg : s.gameState with
      | none => simp [handleInboundEvent, hg]
      | some cur => simp [handleInboundEvent, hg]
  | state_full st => rfl
  | error c msg => rfl
  | effect t => rfl
  | join_success p => rfl

/-- The chat window invariant, threaded through a whole event sequence. -/
theorem handleAll_chatMessages (evs : List InboundEvent) :
    ∀ (s : ClientStore) (t : List ChatMsg), s.chatMessages = lastN 50 t →
      (handleAll evs s).chatMessages = lastN 50 (t ++ chatsOf evs) := by
  induction evs with
  | nil => intro s t h; simpa [handleAll, chatsOf] using h
  | cons ev rest ih =>
      intro s t h
      have hstep : handleAll (ev :: rest) s
          = handleAll rest (handleInboundEvent ev s) := rfl
      rw [hstep]
      cases ev with
      | chat m =>
          have hmsg : (handleInboundEvent (.chat m) s).chatMessages
              = lastN 50 (t ++ [m]) := by
            simp only [handleInboundEvent, h]
            exact lastN_append_one 50 t m
          have := ih (handleInboundEvent (.chat m) s) (t ++ [m]) hmsg
          simpa [chatsOf, List.filterMap_cons] using this
      | state_full st =>
          have := ih (handleInboundEvent (.state_full st) s) t
            (by rw [chatMessages_non_chat _ s (by intro m hm; cases hm)]; exact h)
          simpa [chatsOf, List.filterMap_cons] using this
      | state_patch v ops =>
          have := ih (handleInboundEvent (.state_patch v ops) s) t
            (by rw [chatMessages_non_chat _ s (by intro m hm; cases hm)]; exact h)
          simpa [chatsOf, List.filterMap_cons] using this
      | error c msg =>
          have := ih (handleInboundEvent (.error c msg) s) t
            (by rw [chatMessages_non_chat _ s (by intro m hm; cases hm)]; exact h)
          simpa [chatsOf, List.filterMap_cons] using this
      | effect ty =>
          have := ih (handleInboundEvent (.effect ty) s) t
            (by rw [chatMessages_non_chat _ s (by intro m hm; cases hm)]; exact h)
          simpa [chatsOf, List.filterMap_cons] using this
      | join_success p =>
          have := ih (handleInboundEvent (.join_success p) s) t
            (by rw [chatMessages_non_chat _ s (by intro m hm; cases hm)]; exact h)
          simpa [chatsOf, List.filterMap_cons] using this

/-! ### Lemmas about card selection -/

theorem selStep_nodup (sel : List String) (a : SelAction) (h : sel.Nodup) :
    (selStep sel a).Nodup := by
  cases a with
  | select c =>
      by_cases hc : c ∈ sel
      · simpa [selStep, selectCard, hc] using h
      · simp only [selStep, selectCard, if_neg hc]
        simp [List.nodup_append, h, hc]
  | deselect c =>
      simpa [selStep, deselectCard] using h.filter _
  | clear => simp [selStep, clearSelection]

theorem foldl_selStep_nodup (acts : List SelAction) :
    ∀ sel : List String, sel.Nodup → (acts.foldl selStep sel).Nodup := by
  induction acts with
  | nil => intro sel h; simpa using h
  | cons a rest ih => intro sel h; exact ih _ (selStep_nodup sel a h)

/-! ### Lemmas about the engine card accounting -/

theorem sum_set_add (l : List (Multiset String)) :
    ∀ (i : Nat) (x hi : Multiset String), l[i]? = some hi →
      (l.set i x).sum + hi = l.sum + x := by
  induction l with
  | nil => intro i x hi h; simp at h
  | cons a rest ih =>
      intro i x hi h
      cases i with
      | zero =>
          simp only [List.getElem?_cons_zero, Option.some.injEq] at h
          subst h
          simp only [List.set_cons_zero, List.sum_cons]
          abel
      | succ n =>
          simp only [List.getElem?_cons_succ] at h
          simp only [List.set_cons_succ, List.sum_cons]
          have hr := ih n x hi h
          calc a + (rest.set n x).sum + hi
              = a + ((rest.set n x).sum + hi) := by rw [add_assoc]
            _ = a + (rest.sum + x) := by rw [hr]
            _ = a + rest.sum + x := by rw [add_assoc]

/-- A single engine mutation conserves the multiset of card identities. -/
theorem totalCards_engineStep (s : RoomCards) (op : EngineOp) :
    totalCards (engineStep s op) = totalCards s := by
  have hmove : ∀ (i j : Nat) (cards : Multiset String),
      totalCards (moveCards s i j cards) = totalCards s := by
    intro i j cards
    cases hi : s.hands[i]? with
    | none => simp [moveCards, hi]
    | some hdi =>
        cases hj : s.hands[j]? with
        | none => simp [moveCards, hi, hj]
        | some hdj =>
            by_cases hcond : i ≠ j ∧ cards ≤ hdi
            · obtain ⟨hij, hle⟩ := hcond
              simp only [moveCards, hi, hj, if_pos (And.intro hij hle)]
              have h1 := sum_set_add s.hands i (hdi - cards) hdi hi
              have hj2 : (s.hands.set i (hdi - cards))[j]? = some hdj := by
                rw [List.getElem?_set_ne hij]
                exact hj
              have h2 := sum_set_add (s.hands.set i (hdi - cards)) j
                (hdj + cards) hdj hj2
              have hcancel : hdi - cards + cards = hdi :=
                tsub_add_cancel_of_le hle
              have hsum : ((s.hands.set i (hdi - cards)).set j
                  (hdj + cards)).sum = s.hands.sum := by
                apply add_right_cancel (b := hdj + hdi)
                calc ((s.hands.set i (hdi - cards)).set j (hdj + cards)).sum
                      + (hdj + hdi)
                    = (((s.hands.set i (hdi - cards)).set j
                        (hdj + cards)).sum + hdj) + hdi := by abel
                  _ = ((s.hands.set i (hdi - cards)).sum + (hdj + cards))
                        + hdi := by rw [h2]
                  _ = ((s.hands.set i (hdi - cards)).sum + hdi)
                        + (hdj + cards) := by abel
                  _ = (s.hands.sum + (hdi - cards)) + (hdj + cards) := by
                        rw [h1]
                  _ = s.hands.sum + hdj + (hdi - cards + cards) := by
                        simp only [add_assoc, add_comm, add_left_comm]
                  _ = s.hands.sum + hdj + hdi := by rw [hcancel]
                  _ = s.hands.sum + (hdj + hdi) := by abel
              simp [totalCards, hsum]
            · simp [moveCards, hi, hj, if_neg hcond]
  cases op with
  | play i cards =>
      cases hi : s.hands[i]? with
      | none => simp [engineStep, hi]
      | some hdi =>
          by_cases hle : cards ≤ hdi
          · simp only [engineStep, hi, if_pos hle]
            have h1 := sum_set_add s.hands i (hdi - cards) hdi hi
            have hcancel : hdi - cards + cards = hdi :=
              tsub_add_cancel_of_le hle
            show (s.hands.set i (hdi - cards)).sum + cards
                + (s.discard + s.pile) + s.deck
                = s.hands.sum + s.pile + s.discard + s.deck
            apply add_right_cancel (b := hdi)
            calc (s.hands.set i (hdi - cards)).sum + cards
                  + (s.discard + s.pile) + s.deck + hdi
                = ((s.hands.set i (hdi - cards)).sum + hdi)
                  + (cards + s.discard + s.pile + s.deck) := by abel
              _ = (s.hands.sum + (hdi - cards))
                  + (cards + s.discard + s.pile + s.deck) := by rw [h1]
              _ = (s.hands.sum + s.discard + s.pile + s.deck)
                  + (hdi - cards + cards) := by
                    simp only [add_assoc, add_comm, add_left_comm]
              _ = (s.hands.sum + s.discard + s.pile + s.deck) + hdi := by
                    rw [hcancel]
              _ = s.hands.sum + s.pile + s.discard + s.deck + hdi := by abel
          · simp [engineStep, hi, hle]
  | gift i j cards => exact hmove i j cards
  | reset =>
      show s.hands.sum + 0 + (s.discard + s.pile) + s.deck
          = s.hands.sum + s.pile + s.discard + s.deck
      abel
  | discardSel i cards =>
      cases hi : s.hands[i]? with
      | none => simp [engineStep, hi]
      | some hdi =>
          by_cases hle : cards ≤ hdi
          · simp only [engineStep, hi, if_pos hle]
            have h1 := sum_set_add s.hands i (hdi - cards) hdi hi
            have hcancel : hdi - cards + cards = hdi :=
              tsub_add_cancel_of_le hle
            show (s.hands.set i (hdi - cards)).sum + s.pile
                + (s.discard + cards) + s.deck
                = s.hands.sum + s.pile + s.discard + s.deck
            apply add_right_cancel (b := hdi)
            calc (s.hands.set i (hdi - cards)).sum + s.pile
                  + (s.discard + cards) + s.deck + hdi
                = ((s.hands.set i (hdi - cards)).sum + hdi)
                  + (s.pile + s.discard + cards + s.deck) := by abel
              _ = (s.hands.sum + (hdi - cards))
                  + (s.pile + s.discard + cards + s.deck) := by rw [h1]
              _ = (s.hands.sum + s.pile + s.discard + s.deck)
                  + (hdi - cards + cards) := by
                    simp only [add_assoc, add_comm, add_left_comm]
              _ = (s.hands.sum + s.pile + s.discard + s.deck) + hdi := by
                    rw [hcancel]
              _ = s.hands.sum + s.pile + s.discard + s.deck + hdi := rfl
          · simp [engineStep, hi, hle]
  | exchange i j cards => exact hmove i j cards

/-- A whole run of engine mutations conserves the card multiset. -/
theorem totalCards_engineRun (ops : List EngineOp) :
    ∀ s : RoomCards, totalCards (engineRun s ops) = totalCards s := by
  induction ops with
  | nil => intro s; rfl
  | cons op rest ih =>
      intro s
      calc totalCards (engineRun (engineStep s op) rest)
          = totalCards (engineStep s op) := ih _
        _ = totalCards s := totalCards_engineStep s op

theorem isPrefixOf_append_self (l r : List Char) :
    l.isPrefixOf (l ++ r) = true := by
  induction l with
  | nil => simp [List.isPrefixOf]
  | cons a as ih => simp [List.isPrefixOf, ih]

/-! ### The claims -/

/-- Claim C1, counterexample: a `state_patch` event carrying version 7
whose ops only replace `/phase` leaves the stored state's version at 0 —
`applyPatch` never writes the version carried by the event, so the claim
"the stored version equals the event's version regardless of which ops
the patch contains" is false. -/
theorem c1_counterexample :
    storedVersion (handleInboundEvent
        (.state_patch 7 [.replace "/phase" (.str "play")])
        { gameState := some (.obj [("version", .num 0), ("phase", .str "lobby")]),
          chatMessages := [] })
      = some (.num 0)
    ∧ some (Json.num 0) ≠ some (Json.num 7) := by
  refine ⟨rfl, ?_⟩
  simp

/-- Claim C1, amended: after a `state_patch` the stored state's version is
determined by the ops alone, not by the event's version field: when no
op's path starts at `version` the stored version is unchanged (whether
the patch completes or throws mid-way), and the stored version equals
the event's version when the ops all apply to the state object and end
with a `replace` of `/version` by that value. -/
theorem c1_version_determined_by_ops (s : ClientStore) (cur : Json)
    (v : Int) (ops : List PatchOp) (mcur m : List (String × Json)) :
    (s.gameState = some cur →
      (∀ op ∈ ops, (splitPath (PatchOp.path op)).head? ≠ some "version") →
      storedVersion (handleInboundEvent (.state_patch v ops) s)
        = storedVersion s)
    ∧ (s.gameState = some (.obj mcur) →
        applyPatch (.obj mcur) ops = some (.obj m) →
        storedVersion (handleInboundEvent
          (.state_patch v (ops ++ [.replace "/version" (.num v)])) s)
          = some (.num v)) := by
  constructor
  · intro hg hnone
    have hrun := runPatch_getField ops (initCopy cur) "version"
      (getField cur "version") hnone (shallowCopy_getField cur "version") rfl
    simp [handleInboundEvent, hg, storedVersion, hrun]
  · intro hg hap
    have hsplit : splitPath "/version" = ["version"] := rfl
    have hfin : applyPatch (.obj mcur) (ops ++ [.replace "/version" (.num v)])
        = some (.obj (setKey m "version" (.num v))) := by
      rw [applyPatch_append, hap]
      simp [applyPatch, applyOp, hsplit, setNestedValue]
    have hfin2 : applyPatch (initCopy (.obj mcur)).copy
        (ops ++ [.replace "/version" (.num v)])
        = some (.obj (setKey m "version" (.num v))) := hfin
    have hrun := runPatch_of_applyPatch (ops ++ [.replace "/version" (.num v)])
      (initCopy (.obj mcur)) (.obj (setKey m "version" (.num v))) hfin2
    simp [handleInboundEvent, hg, storedVersion, hrun, getField,
      getKey_setKey_self]

/-- Witness for `c1_version_determined_by_ops` at a concrete store, patch
and version. -/
theorem c1_version_determined_by_ops_witness :
    storedVersion (handleInboundEvent (.state_patch 7
        [.replace "/phase" (.str "play"), .replace "/version" (.num 7)])
      { gameState := some (.obj [("version", .num 0), ("phase", .str "lobby")]),
        chatMessages := [] })
      = some (.num 7)
    ∧ storedVersion (handleInboundEvent (.state_patch 9
        [.replace "/phase" (.str "play")])
      { gameState := some (.obj [("version", .num 0), ("phase", .str "lobby")]),
        chatMessages := [] })
      = storedVersion
      { gameState := some (.obj [("version", .num 0), ("phase", .str "lobby")]),
        chatMessages := [] } := by
  constructor
  · exact (c1_version_determined_by_ops
      { gameState := some (.obj [("version", .num 0), ("phase", .str "lobby")]),
        chatMessages := [] }
      (.obj [("version", .num 0), ("phase", .str "lobby")]) 7
      [.replace "/phase" (.str "play")]
      [("version", .num 0), ("phase", .str "lobby")]
      [("version", .num 0), ("phase", .str "play")]).2 rfl rfl
  · exact (c1_version_determined_by_ops
      { gameState := some (.obj [("version", .num 0), ("phase", .str "lobby")]),
        chatMessages := [] }
      (.obj [("version", .num 0), ("phase", .str "lobby")]) 9
      [.replace "/phase" (.str "play")] [] []).1 rfl
      (by intro op hop
          rw [List.mem_singleton] at hop
          subst hop
          decide)

/-- Claim C2, counterexample: a `replace` whose path navigates into an
existing non-object value throws (the patch aborts with no value
written); a `replace` with an empty path writes nothing; and the abort
is not atomic — on state `{a:{x:0}, b:1}`, the ops
`[replace /a/x 9, replace /b 2, replace /b/q 3]` store `{a:{x:9}, b:1}`:
the third op throws, the second op's top-level write to the shallow copy
is lost, yet the first op's deep mutation of the shared nested object
persists — so neither "a replace op sets the value at its path" nor the
frame part holds for every state and op list. -/
theorem c2_counterexample :
    applyPatch (.obj [("a", .num 5)]) [.replace "/a/b" (.num 1)] = none
    ∧ applyPatch (.obj [("a", .num 1)]) [.replace "" (.num 2)]
        = some (.obj [("a", .num 1)])
    ∧ getPath (.obj [("a", .num 1)]) (splitPath "") ≠ some (.num 2)
    ∧ handleInboundEvent (.state_patch 5
        [.replace "/a/x" (.num 9), .replace "/b" (.num 2),
         .replace "/b/q" (.num 3)])
        { gameState := some (.obj [("a", .obj [("x", .num 0)]), ("b", .num 1)]),
          chatMessages := [] }
        = { gameState :=
              some (.obj [("a", .obj [("x", .num 9)]), ("b", .num 1)]),
            chatMessages := [] } := by
  refine ⟨rfl, rfl, ?_, rfl⟩
  intro h
  simp [splitPath, jsSplitAll, getPath] at h

/-- Claim C2, amended: `applyPatch` applies ops in list order; a
`replace`/`add` whose nonempty path never meets a non-object value sets
the value at its path (creating missing intermediate objects); a `remove`
with a successful nonempty path leaves nothing at that path and is a
no-op when an intermediate segment is absent; every path diverging from
all op paths keeps its previous value; an op that throws aborts the
patch, and when the first op throws the store is unchanged (a later
throw keeps the successful prefix's shared deep mutations, per the
counterexample). -/
theorem c2_patch_semantics (j j2 : Json) (op : PatchOp) (ops : List PatchOp)
    (p : String) (v : Json) (q : List String) (s : ClientStore)
    (mcur : List (String × Json)) (vv : Int) :
    (applyPatch j (op :: ops)
        = (applyOp j op).bind (fun jmid => applyPatch jmid ops))
    ∧ (splitPath p ≠ [] → applyOp j (.replace p v) = some j2 →
        getPath j2 (splitPath p) = some v)
    ∧ (splitPath p ≠ [] → applyOp j (.add p v) = some j2 →
        getPath j2 (splitPath p) = some v)
    ∧ (splitPath p ≠ [] → applyOp j (.remove p) = some j2 →
        getPath j2 (splitPath p) = none)
    ∧ (∀ (m : List (String × Json)) (khd : String) (rest2 : List String),
        getKey m khd = none → rest2 ≠ [] →
        removeNestedValue (.obj m) (khd :: rest2) = some (.obj m))
    ∧ (applyPatch j ops = some j2 →
        (∀ o ∈ ops, diverges (splitPath (PatchOp.path o)) q = true) →
        getPath j2 q = getPath j q)
    ∧ (s.gameState = some (.obj mcur) → applyOp (.obj mcur) op = none →
        handleInboundEvent (.state_patch vv (op :: ops)) s = s) := by
  refine ⟨?_, ?_, ?_, ?_, ?_, ?_, ?_⟩
  · cases hop : applyOp j op <;> simp [applyPatch, hop]
  · intro hp hset
    exact setNestedValue_getPath (splitPath p) j v j2 hp hset
  · intro hp hset
    exact setNestedValue_getPath (splitPath p) j v j2 hp hset
  · intro hp hrem
    exact removeNestedValue_getPath (splitPath p) j j2 hp hrem
  · intro m khd rest2 habs hr2
    exact removeNestedValue_absent m khd rest2 hr2 habs
  · intro happ hall
    exact applyPatch_getPath_diverges ops j j2 q happ hall
  · intro hg hthrow
    have hrp : runPatch (initCopy (.obj mcur)) (op :: ops) = .obj mcur := by
      simp [runPatch, stepCopy, initCopy, shallowCopy, hthrow]
    obtain ⟨gs, cm⟩ := s
    simp only at hg
    subst hg
    simp [handleInboundEvent, hrp]

/-- Witness for `c2_patch_semantics` at concrete states, ops and paths. -/
theorem c2_patch_semantics_witness :
    getPath (Json.obj [("a", .obj [("b", .num 3)])]) (splitPath "/a/b")
        = some (.num 3)
    ∧ getPath (Json.obj []) (splitPath "/x")
        = none
    ∧ removeNestedValue (.obj [("a", .num 1)]) ("z" :: ["w"])
        = some (.obj [("a", .num 1)])
    ∧ getPath (Json.obj [("version", .num 4), ("phase", .str "play")]) ["version"]
        = getPath (Json.obj [("version", .num 4), ("phase", .str "lobby")])
            ["version"]
    ∧ handleInboundEvent (.state_patch 5 [.replace "/a/b" (.num 1)])
        { gameState := some (.obj [("a", .num 5)]), chatMessages := [] }
        = { gameState := some (.obj [("a", .num 5)]), chatMessages := [] } := by
  refine ⟨?_, ?_, ?_, ?_, ?_⟩
  · exact (c2_patch_semantics (Json.obj [("a", .obj [("b", .num 2)])])
      (Json.obj [("a", .obj [("b", .num 3)])]) (.remove "") [] "/a/b" (.num 3)
      [] initialStore [] 0).2.1 (by decide) rfl
  · exact (c2_patch_semantics (Json.obj [("x", .num 9)])
      (Json.obj []) (.remove "") [] "/x" .null
      [] initialStore [] 0).2.2.2.1 (by decide) rfl
  · exact (c2_patch_semantics .null .null (.remove "") [] "" .null
      [] initialStore [] 0).2.2.2.2.1 [("a", .num 1)] "z" ["w"] rfl
      (by decide)
  · exact (c2_patch_semantics
      (Json.obj [("version", .num 4), ("phase", .str "lobby")])
      (Json.obj [("version", .num 4), ("phase", .str "play")])
      (.remove "") [.replace "/phase" (.str "play")] "" .null
      ["version"] initialStore [] 0).2.2.2.2.2.1 rfl
      (by intro o ho
          rw [List.mem_singleton] at ho
          subst ho
          decide)
  · exact (c2_patch_semantics .null .null (.replace "/a/b" (.num 1))
      [] "" .null []
      { gameState := some (.obj [("a", .num 5)]), chatMessages := [] }
      [("a", .num 5)] 5).2.2.2.2.2.2 rfl rfl

/-- Claim C3: handling an `error` event — any code and message — leaves
the whole client store unchanged: no game-state mutation, no version
change; the handler only raises a toast notification. -/
theorem c3_error_no_mutation (code msg : String) (s : ClientStore) :
    handleInboundEvent (.error code msg) s = s := rfl

/-- Claim C4, code evaluation: `NORMAL_ORDER` is indeed the 14-symbol
total order with Joker above 2, but `parseCard` in GameTable.tsx tests
the last character of the token (the suit position) against
`['J','Q','K','A']`, so a face-card token such as `JS` reaches
`parseInt('J')` = NaN, gets index -1, and `sortHand` places it below a 3
— positions 8 then 0, violating the claimed non-decreasing order. -/
theorem c4_sortHand_bug :
    NORMAL_ORDER.length = 14
    ∧ NORMAL_ORDER.Nodup
    ∧ jsIndexOf NORMAL_ORDER (.num 2) = 12
    ∧ jsIndexOf NORMAL_ORDER (.str "JOKER") = 13
    ∧ parseCardRank ['J', 'S'] = .nan
    ∧ rankIdx ['J', 'S'] = -1
    ∧ sortHand [['J', 'S'], ['3', 'S']] = [['J', 'S'], ['3', 'S']]
    ∧ specRankPos ['J', 'S'] = some 8
    ∧ specRankPos ['3', 'S'] = some 0 := by
  refine ⟨rfl, by decide, by decide, by decide, by decide, by decide,
    by decide, by decide, by decide⟩

/-- Claim C5: for every valid non-Joker token (one of the 13 rank
spellings followed by one of the 4 suit letters), `parseCard` in Card.tsx
returns exactly that rank string and that suit — so rank ++ suit
round-trips to the token, including the two-character rank `10` — and
every token beginning with `JOKER` parses to rank `JOKER` with an empty
suit. -/
theorem c5_parseCard_roundtrip :
    (∀ r ∈ rankTokens, ∀ sl ∈ suitChars,
        parseCardC (r ++ [sl]) = (r, [sl]))
    ∧ (∀ rest : List Char, parseCardC (jokerChars ++ rest)
        = (jokerChars, [])) := by
  constructor
  · decide
  · intro rest
    simp [parseCardC, isPrefixOf_append_self]

/-- Witness for `c5_parseCard_roundtrip` at the token `10H` and a
concrete Joker token. -/
theorem c5_parseCard_roundtrip_witness :
    parseCardC (['1', '0'] ++ ['H']) = (['1', '0'], ['H'])
    ∧ parseCardC (jokerChars ++ ['_', 'A']) = (jokerChars, []) :=
  ⟨c5_parseCard_roundtrip.1 ['1', '0'] (by decide) 'H' (by decide),
   c5_parseCard_roundtrip.2 ['_', 'A']⟩

/-- Claim C6: in the lobby, starting is enabled exactly when the room
holds at least 3 players, and the add-bot control is offered exactly
while it holds fewer than 5 — the configured 3–5 player bounds. -/
theorem c6_lobby_gates (players : List LobbyPlayer) :
    (lobbyCanStart players = true ↔ 3 ≤ players.length)
    ∧ (lobbyCanAddBots players = true ↔ players.length < 5) := by
  constructor <;> simp [lobbyCanStart, lobbyCanAddBots]

/-- Claim C7: from any room state whose card locations (hands, pile,
discard, undealt deck) total the configured deck, every sequence of
engine operations (play, gift, reset, discard, exchange) preserves that
total exactly — the count equals the configured deck size and no card
identity ever appears twice. -/
theorem c7_card_conservation (s0 : RoomCards) (ops : List EngineOp)
    (deckCfg : Multiset String)
    (h0 : totalCards s0 = deckCfg) (hnd : deckCfg.Nodup) :
    totalCards (engineRun s0 ops) = deckCfg
    ∧ Multiset.card (totalCards (engineRun s0 ops)) = Multiset.card deckCfg
    ∧ (totalCards (engineRun s0 ops)).Nodup := by
  have h := totalCards_engineRun ops s0
  rw [h, h0]
  exact ⟨rfl, rfl, hnd⟩

/-- Witness for `c7_card_conservation`: a 2-seat room playing a card,
gifting one and resetting the pile keeps the same card multiset. -/
theorem c7_card_conservation_witness :
    totalCards (engineRun
      { hands := [{"3S", "4H"}, {"5D"}], pile := 0, discard := 0,
        deck := {"6C"} }
      [.play 0 {"3S"}, .gift 1 0 {"5D"}, .reset])
      = ({"3S", "4H", "5D", "6C"} : Multiset String)
    ∧ (totalCards (engineRun
      { hands := [{"3S", "4H"}, {"5D"}], pile := 0, discard := 0,
        deck := {"6C"} }
      [.play 0 {"3S"}, .gift 1 0 {"5D"}, .reset])).Nodup :=
  ⟨(c7_card_conservation
      { hands := [{"3S", "4H"}, {"5D"}], pile := 0, discard := 0,
        deck := {"6C"} }
      [.play 0 {"3S"}, .gift 1 0 {"5D"}, .reset]
      ({"3S", "4H", "5D", "6C"} : Multiset String)
      (by decide) (by decide)).1,
   (c7_card_conservation
      { hands := [{"3S", "4H"}, {"5D"}], pile := 0, discard := 0,
        deck := {"6C"} }
      [.play 0 {"3S"}, .gift 1 0 {"5D"}, .reset]
      ({"3S", "4H", "5D", "6C"} : Multiset String)
      (by decide) (by decide)).2.2⟩

/-- Claim C8: from the empty selection, any sequence of select, deselect
and clear calls leaves `selectedCards` duplicate-free; selecting an
already selected id is a no-op and deselecting removes every occurrence
of the id. -/
theorem c8_selection_invariants (acts : List SelAction)
    (sel : List String) (c : String) :
    (runSel acts).Nodup
    ∧ (c ∈ sel → selectCard sel c = sel)
    ∧ c ∉ deselectCard sel c := by
  refine ⟨foldl_selStep_nodup acts [] (by simp), ?_, ?_⟩
  · intro h
    simp [selectCard, h]
  · simp [deselectCard]

/-- Witness for `c8_selection_invariants` on a concrete action sequence
and selection. -/
theorem c8_selection_invariants_witness :
    (runSel [.select "3S", .select "3S", .deselect "3S", .select "4H"]).Nodup
    ∧ selectCard ["3S", "4H"] "3S" = ["3S", "4H"]
    ∧ "3S" ∉ deselectCard ["3S", "4H", "3S"] "3S" :=
  ⟨(c8_selection_invariants
      [.select "3S", .select "3S", .deselect "3S", .select "4H"]
      ["3S", "4H"] "3S").1,
   (c8_selection_invariants [] ["3S", "4H"] "3S").2.1 (by decide),
   (c8_selection_invariants [] ["3S", "4H", "3S"] "3S").2.2⟩

/-- Claim C9: after handling any sequence of inbound events from the
initial store, `chatMessages` is exactly the last-50 window of the chat
messages received, in arrival order, hence never longer than 50. -/
theorem c9_chat_window (evs : List InboundEvent) :
    (handleAll evs initialStore).chatMessages = lastN 50 (chatsOf evs)
    ∧ (handleAll evs initialStore).chatMessages.length ≤ 50 := by
  have h := handleAll_chatMessages evs initialStore [] rfl
  constructor
  · simpa using h
  · have h2 : (handleAll evs initialStore).chatMessages
        = lastN 50 (chatsOf evs) := by simpa using h
    rw [h2]
    exact length_lastN_le 50 (chatsOf evs)

/-- Claim C10: while the stored game state is absent, a `state_patch`
leaves it absent, and no event other than `state_full` can establish a
game state. -/
theorem c10_patch_needs_state (s : ClientStore) (v : Int)
    (ops : List PatchOp) (hnone : s.gameState = none) :
    (handleInboundEvent (.state_patch v ops) s).gameState = none
    ∧ ∀ ev : InboundEvent, (∀ st, ev ≠ .state_full st) →
        (handleInboundEvent ev s).gameState = none := by
  constructor
  · simp [handleInboundEvent, hnone]
  · intro ev hev
    cases ev with
    | state_full st => exact absurd rfl (hev st)
    | state_patch v2 ops2 => simp [handleInboundEvent, hnone]
    | error c m => simpa [handleInboundEvent] using hnone
    | effect t => simpa [handleInboundEvent] using hnone
    | chat m => simpa [handleInboundEvent] using hnone
    | join_success p => simpa [handleInboundEvent] using hnone

/-- Witness for `c10_patch_needs_state` at the initial store. -/
theorem c10_patch_needs_state_witness :
    (handleInboundEvent (.state_patch 3 [.replace "/version" (.num 3)])
      initialStore).gameState = none :=
  (c10_patch_needs_state initialStore 3 [.replace "/version" (.num 3)]
    rfl).1

end President
